import Mathlib

/-! Verification of the seekret-source-git extractor (`load_source.go`).

The Go source is shallowly embedded: pure helpers become Lean functions,
calls into the git engine (git2go/libgit2, an external capability) are
modelled as fields of a `Repo`/`World` record, and every Go function that
returns an `(value, error)` pair is translated return-site by return-site
into `GoResult`, so that the pair discipline of the source (`return nil, err`
versus `return list, nil`) is visible in the model rather than imposed by a
Lean `Except` type.  A runtime panic (nil-pointer dereference) is a third
outcome, `crash`.
-/

namespace Seekret

/-- A git engine error, carried as its message. -/
abbrev GitError := String

/-- Outcome of a Go function with a `([]models.Object, error)`-style
signature: `ret xs err` records the two returned values exactly as the
corresponding `return` statement writes them; `crash` records a runtime
panic, which returns nothing. -/
inductive GoResult (α : Type) where
  | ret : Option α → Option GitError → GoResult α
  | crash : GoResult α
  deriving DecidableEq

instance {ε α : Type} [DecidableEq ε] [DecidableEq α] : DecidableEq (Except ε α) := fun a b =>
  match a, b with
  | .error e, .error f =>
    if h : e = f then isTrue (by rw [h]) else isFalse (by simp [h])
  | .ok x, .ok y =>
    if h : x = y then isTrue (by rw [h]) else isFalse (by simp [h])
  | .error _, .ok _ => isFalse (by simp)
  | .ok _, .error _ => isFalse (by simp)

/-- Go `models.MetadataAttributes` (seekret host framework): attribute flags of
a metadata entry; `PrimaryKey` marks the entry as the advisory dedup key. -/
structure MetadataAttributes where
  PrimaryKey : Bool
  deriving DecidableEq

/-- One metadata entry of a Content Object. -/
structure MetadataEntry where
  key : String
  value : String
  attrs : MetadataAttributes
  deriving DecidableEq

/-- Modelled from the spec: the Content Object handed to the host scanner
(`models.Object` lives in the seekret host repository, outside these
sources).  Fields per the spec data model: id/name, the source type tag, the
origin tag (`"file-content"` or `"commit-message"`), the raw payload, and an
ordered metadata mapping. -/
structure Object where
  name : String
  sourceType : String
  originTag : String
  payload : String
  metadata : List MetadataEntry
  deriving DecidableEq

/-- Go `models.NewObject`: a fresh object with empty metadata. -/
def NewObject (name sourceType originTag payload : String) : Object :=
  ⟨name, sourceType, originTag, payload, []⟩

/-- Go `models.Object.SetMetadata`: record a key/value metadata entry. -/
def Object.SetMetadata (o : Object) (k v : String) (a : MetadataAttributes) : Object :=
  { o with metadata := o.metadata ++ [⟨k, v, a⟩] }

/-- Does the object carry a metadata entry with this key and value? -/
def Object.hasMeta (o : Object) (k v : String) : Bool :=
  o.metadata.any (fun m => m.key == k && m.value == v)

/-- Does the object carry a metadata entry with this key? -/
def Object.hasMetaKey (o : Object) (k : String) : Bool :=
  o.metadata.any (fun m => m.key == k)

/-- The package constant `Type = "seekret-source-git"`. -/
def sourceTypeName : String := "seekret-source-git"

/-- git object kinds as distinguished by the tree walk (`tentry.Type`). -/
inductive GitObjType where
  | blob
  | tree
  | other
  deriving DecidableEq

/-- One entry visited by the recursive `tree.Walk` of a commit: `base` is
the directory prefix supplied by the walk, `name` the entry name, `oid` the
object id (`tentry.Id`) the entry references. -/
structure TreeEntry where
  base : String
  name : String
  etype : GitObjType
  oid : String
  deriving DecidableEq

/-- A commit as seen by the revision walk: hash, message, commit time, and
the result of `commit.Tree()` — `.error` when the tree object cannot be
obtained, in which case git2go returns a nil `*Tree` alongside the error.
The `.ok` list is the sequence of entries the recursive `tree.Walk`
visits. -/
structure Commit where
  id : String
  message : String
  time : Int
  treeRes : Except GitError (List TreeEntry)
  deriving DecidableEq

/-- One staging-index entry: path and referenced blob id (`entry.Id`). -/
structure IndexEntry where
  path : String
  oid : String
  deriving DecidableEq

/-- Go `git.StatusCurrent`: the "unchanged" file status. -/
def statusCurrent : Nat := 0

/-- The opened repository, as the extractor observes it through the git
engine.  The engine is external to these sources, so its call results are
modelled as fields, following the spec where it describes engine behaviour:

* `commits`: the commits reachable from the branch tip, listed in the order
  the time-sorted revision walk (`walk.Sorting(git.SortTime)`) yields them,
  i.e. commit time descending, most recent first;
* `walkErr`, `pushHeadErr`, `iterateErr`: failures of `repo.Walk()`,
  `walk.PushHead()`, and of the walk machinery inside `walk.Iterate` (the
  latter modelled as arising after the visited commits are processed);
* `blobs`: `repo.LookupBlob` by object id, payload as raw bytes/string;
* `indexRes`: `repo.Index()` with its entries in index (path) order;
* `statusFile`: `repo.StatusFile` per path. -/
structure Repo where
  commits : List Commit
  walkErr : Option GitError
  pushHeadErr : Option GitError
  iterateErr : Option GitError
  blobs : String → Except GitError String
  indexRes : Except GitError (List IndexEntry)
  statusFile : String → Except GitError Nat

/-- A value of the caller's configuration map (Go `interface{}`): the option
reader only distinguishes bool values, int values, and anything else. -/
inductive OptValue where
  | b : Bool → OptValue
  | i : Int → OptValue
  | other : OptValue
  deriving DecidableEq

/-- Go `seekret.LoadOptions`: the caller's configuration map. -/
abbrev LoadOptions := List (String × OptValue)

/-- Go map lookup `o[k]`. -/
def lookupOpt (o : LoadOptions) (k : String) : Option OptValue :=
  (o.find? (fun p => p.1 == k)).map (fun p => p.2)

/-- The checked type assertion `v, ok := o[k].(bool)`. -/
def lookupBool (o : LoadOptions) (k : String) : Option Bool :=
  match lookupOpt o k with
  | some (.b v) => some v
  | _ => none

/-- The checked type assertion `v, ok := o[k].(int)`. -/
def lookupInt (o : LoadOptions) (k : String) : Option Int :=
  match lookupOpt o k with
  | some (.i v) => some v
  | _ => none

/-- Go `SourceGitLoadOptions`. -/
structure SourceGitLoadOptions where
  CommitFiles : Bool
  CommitMessages : Bool
  StagedFiles : Bool
  CommitCount : Int
  deriving DecidableEq

/-- Go `prepareGitLoadOptions`: all options default to false/0 and are
overridden only by a recognized key holding a value of the right type. -/
def prepareGitLoadOptions (o : LoadOptions) : SourceGitLoadOptions :=
  let opt : SourceGitLoadOptions := ⟨false, false, false, 0⟩
  let opt := match lookupBool o "commit-files" with
    | some v => { opt with CommitFiles := v }
    | none => opt
  let opt := match lookupBool o "commit-messages" with
    | some v => { opt with CommitMessages := v }
    | none => opt
  let opt := match lookupBool o "staged-files" with
    | some v => { opt with StagedFiles := v }
    | none => opt
  match lookupInt o "commit-count" with
    | some v => { opt with CommitCount := v }
    | none => opt

/-! Section: The locator normalizer (`normalizeGitUri`)

The Go code matches the anchored regular expression

  `^(?:(https?|git|ssh)://|(git@))([^:|/]+)(?:/|:)([^/]+)/([^/\.]+)(.git)$`

and, on a match, rebuilds the locator from the capture groups.  The regex is
deterministic on every input (each quantified class excludes the character
that must follow it), so it is embedded as a left-to-right parser producing
the capture groups.  Note that the final group `(.git)` starts with an
UNESCAPED dot: it matches one arbitrary character followed by `git`. -/

/-- Character class `[^:|/]` of the host group. -/
def hostOk (c : Char) : Bool := c != ':' && c != '|' && c != '/'

/-- Character class `[^/]` of the org group. -/
def orgOk (c : Char) : Bool := c != '/'

/-- Character class `[^/\.]` of the repo group. -/
def repoOk (c : Char) : Bool := c != '/' && c != '.'

/-- Character class of the regex metacharacter `.` in the suffix group
`(.git)`: any character EXCEPT newline (Go's regexp default — only the `s`
flag would make the dot match a newline, and it is not set). -/
def dotOk (c : Char) : Bool := c != '\n'

/-- The capture groups of the regex, named after `u[1]`…`u[6]` in the Go
code: `proto` is group 1 (empty when unmatched), `atPart` group 2 (`"git@"`
or empty), then host, org, repo, and the 4-character suffix group
`(.git)`. -/
structure RemoteParts where
  proto : List Char
  atPart : List Char
  host : List Char
  org : List Char
  repo : List Char
  suffix : List Char
  deriving DecidableEq

/-- Literal matching: consume the pattern `pat` off the head of `s`,
returning the remainder, or `none` if `s` does not start with `pat`. -/
def eatToken : List Char → List Char → Option (List Char)
  | [], s => some s
  | _ :: _, [] => none
  | p :: ps, c :: s => if c = p then eatToken ps s else none

/-- The alternation `(?:(https?|git|ssh)://|(git@))` at the start of the
regex.  The five concrete alternatives (`http://`, `https://`, `git://`,
`ssh://`, `git@`) are pairwise incompatible as string heads, so the branch
order is immaterial; on success the groups `u[1]`, `u[2]` and the unread
remainder are returned. -/
def matchScheme (s : List Char) : Option (List Char × List Char × List Char) :=
  match eatToken "http://".toList s with
  | some rest => some ("http".toList, [], rest)
  | none =>
  match eatToken "https://".toList s with
  | some rest => some ("https".toList, [], rest)
  | none =>
  match eatToken "git://".toList s with
  | some rest => some ("git".toList, [], rest)
  | none =>
  match eatToken "ssh://".toList s with
  | some rest => some ("ssh".toList, [], rest)
  | none =>
  match eatToken "git@".toList s with
  | some rest => some ([], "git@".toList, rest)
  | none => none

/-- The whole regex.  After the scheme: the host is the maximal nonempty
run of `[^:|/]` characters (maximality is forced, the class excludes both
separators), the next character must be the separator `/` or `:`, the org
is the maximal nonempty `[^/]` run, the next character must be `/`, and the
rest must split as `repo ++ [c] ++ "git"` with `repo` a nonempty `[^/\.]`
run and `c` a single arbitrary non-newline character (the unescaped dot,
which by Go's regexp default does not match `'\n'`). -/
def matchGitUri (s : List Char) : Option RemoteParts :=
  match matchScheme s with
  | none => none
  | some (u1, u2, rest) =>
    let host := rest.takeWhile hostOk
    match rest.dropWhile hostOk with
    | [] => none
    | sep :: rest2 =>
      if (sep == '/' || sep == ':') && !host.isEmpty then
        let org := rest2.takeWhile orgOk
        match rest2.dropWhile orgOk with
        | [] => none
        | _ :: tail =>
          -- the first character dropped by `dropWhile orgOk` is forcibly '/'
          if !org.isEmpty && decide (5 ≤ tail.length) then
            let rp := tail.take (tail.length - 4)
            let suf := tail.drop (tail.length - 4)
            if suf.drop 1 = ['g', 'i', 't'] && (suf.take 1).all dotOk
                && rp.all repoOk then
              some ⟨u1, u2, host, org, rp, suf⟩
            else none
          else none
      else none

/-- Go `normalizeGitUri`: returns the canonical locator and whether it was
recognized as remote.  On a match the locator is rebuilt by
`fmt.Sprintf("%s://%s%s/%s/%s%s", proto, u[2], u[3], u[4], u[5], u[6])`,
with the protocol defaulted to `ssh` when group 1 is not one of the four
protocols (i.e. in the `git@` form, where it is empty). -/
def normalizeGitUri (source : String) : String × Bool :=
  match matchGitUri source.toList with
  | none => (source, false)
  | some u =>
    let proto :=
      if u.proto = "http".toList ∨ u.proto = "https".toList ∨
          u.proto = "ssh".toList ∨ u.proto = "git".toList then u.proto
      else "ssh".toList
    (String.mk (proto ++ "://".toList ++ u.atPart ++ u.host ++ ['/'] ++ u.org ++
      ['/'] ++ u.repo ++ u.suffix), true)

/-! Section: Repository resolution -/

/-- The process environment the resolver interacts with: opening a local
repository (`git.OpenRepositoryExtended`), creating a temporary directory
(`ioutil.TempDir`), and cloning a remote (`git.Clone` with the SSH
credential and accept-all certificate callbacks, both internal to the
engine call). -/
structure World where
  localRepo : String → Except GitError Repo
  tempDir : Except GitError String
  clone : String → String → Except GitError Repo

/-- Go `openGitRepoLocal`. -/
def openGitRepoLocal (w : World) (source : String) : GoResult Repo :=
  match w.localRepo source with
  | .error e => .ret none (some e)
  | .ok repo => .ret (some repo) none

/-- Go `openGitRepoRemote`: temporary directory, then clone into it. -/
def openGitRepoRemote (w : World) (gitUri : String) : GoResult Repo :=
  match w.tempDir with
  | .error e => .ret none (some e)
  | .ok tmpdir =>
    match w.clone gitUri tmpdir with
    | .error e => .ret none (some e)
    | .ok repo => .ret (some repo) none

/-- Go `openGitRepo`: normalize the locator, then clone (remote) or open in
place (local, with the original source string). -/
def openGitRepo (w : World) (source : String) : GoResult Repo :=
  let n := normalizeGitUri source
  if n.2 then openGitRepoRemote w n.1 else openGitRepoLocal w source

/-! Section: The commit history extractor (`objectsFromCommit`) -/

/-- Does `walk.PushRange("HEAD~n..HEAD")` succeed?  Engine behaviour
modelled from the spec: the bounded range is accepted exactly when `HEAD~n`
exists, i.e. when fewer commits are requested than are reachable, and then
selects the `n` most recent commits. -/
def pushRangeOk (repo : Repo) (count : Int) : Bool :=
  count < (repo.commits.length : Int)

/-- Lines 104–117: the range/head pushing stage of the walk.  A positive
count first tries the bounded range `HEAD~count..HEAD` and falls back to
`PushHead` when the engine rejects it; a non-positive count goes directly
to `PushHead`.  The result is the list of commits the walk will visit, in
time-descending order. -/
def pushCommits (repo : Repo) (count : Int) : Except GitError (List Commit) :=
  if count > 0 then
    if pushRangeOk repo count then .ok (repo.commits.take count.toNat)
    else
      match repo.pushHeadErr with
      | some e => .error e
      | none => .ok repo.commits
  else
    match repo.pushHeadErr with
    | some e => .error e
    | none => .ok repo.commits

/-- The body of the `tree.Walk` callback for one tree entry: non-blob
entries are ignored, a failing `repo.LookupBlob` makes the callback return 0
(skip the entry, keep walking), and otherwise a `file-content` object is
emitted carrying the commit hash and the blob id (`uniq-id`, the advisory
primary key). -/
def treeEntryObject (repo : Repo) (commit : Commit) (te : TreeEntry) : Option Object :=
  if te.etype = GitObjType.blob then
    match repo.blobs te.oid with
    | .error _ => none
    | .ok contents =>
      some ((((NewObject (te.base ++ te.name) sourceTypeName "file-content"
        contents).SetMetadata "commit" commit.id ⟨false⟩).SetMetadata
          "uniq-id" te.oid ⟨true⟩))
  else none

/-- The body of the `walk.Iterate` callback for one visited commit.  The
commit's tree is looked up first; on failure the error is only printed and
`tree` is nil.  If `commitMessages` is set a `commit-message` object is
emitted.  If `commitFiles` is set the tree is walked — and when the tree
lookup failed this dereferences the nil `*Tree`, a runtime panic, modelled
as `none`. -/
def walkIterateBody (repo : Repo) (commitFiles commitMessages : Bool) (commit : Commit) :
    Option (List Object) :=
  let msgObjs : List Object :=
    if commitMessages then
      [(NewObject ("commit-" ++ commit.id) sourceTypeName "commit-message"
        commit.message).SetMetadata "commit" commit.id ⟨false⟩]
    else []
  if commitFiles then
    match commit.treeRes with
    | .error _ => none
    | .ok entries => some (msgObjs ++ entries.filterMap (treeEntryObject repo commit))
  else some msgObjs

/-- Go `walk.Iterate`: process the visited commits in order, accumulating
emitted objects; a panic in the callback aborts everything. -/
def iterateCommits (repo : Repo) (commitFiles commitMessages : Bool) :
    List Commit → List Object → Option (List Object)
  | [], objectList => some objectList
  | commit :: rest, objectList =>
    match walkIterateBody repo commitFiles commitMessages commit with
    | none => none
    | some objs => iterateCommits repo commitFiles commitMessages rest (objectList ++ objs)

/-- Go `objectsFromCommit`: set up the walk (`repo.Walk()`, then the push
stage), iterate, and return the collected objects; failures of the walk
machinery return `nil` with the error. -/
def objectsFromCommit (repo : Repo) (commitFiles commitMessages : Bool) (count : Int) :
    GoResult (List Object) :=
  match repo.walkErr with
  | some e => .ret none (some e)
  | none =>
    match pushCommits repo count with
    | .error e => .ret none (some e)
    | .ok visited =>
      match iterateCommits repo commitFiles commitMessages visited [] with
      | none => .crash
      | some objs =>
        match repo.iterateErr with
        | some e => .ret none (some e)
        | none => .ret (some objs) none

/-! Section: The staged change extractor (`objectsFromStagedFiles`) -/

/-- The body of the index loop of `objectsFromStagedFiles`: per entry, a
failing `StatusFile` or (for a changed entry) a failing `LookupBlob`
aborts with `return nil, err`; an entry whose status is `StatusCurrent`
is skipped; otherwise a `file-content` object with metadata
`status = "staged"` is appended. -/
def stagedLoop (repo : Repo) : List IndexEntry → List Object → GoResult (List Object)
  | [], objectList => .ret (some objectList) none
  | entry :: rest, objectList =>
    match repo.statusFile entry.path with
    | .error e => .ret none (some e)
    | .ok status =>
      if status ≠ statusCurrent then
        match repo.blobs entry.oid with
        | .error e => .ret none (some e)
        | .ok contents =>
          stagedLoop repo rest (objectList ++
            [(NewObject entry.path sourceTypeName "file-content"
              contents).SetMetadata "status" "staged" ⟨false⟩])
      else stagedLoop repo rest objectList

/-- Go `objectsFromStagedFiles`: read the index and run the loop over its
entries in index order. -/
def objectsFromStagedFiles (repo : Repo) : GoResult (List Object) :=
  match repo.indexRes with
  | .error e => .ret none (some e)
  | .ok entries => stagedLoop repo entries []

/-! Section: The orchestrator (`LoadObjects`) -/

/-- The body of `LoadObjects` after `prepareGitLoadOptions`: resolve the
repository, run the history extractor when BOTH `CommitFiles` and
`CommitMessages` are set, run the staged extractor when `StagedFiles` is
set, concatenating history objects before staged objects; any extractor
error makes the whole call `return nil, err`. -/
def loadObjectsWith (w : World) (source : String) (opt : SourceGitLoadOptions) :
    GoResult (List Object) :=
  match openGitRepo w source with
  | .crash => .crash
  | .ret _ (some e) => .ret none (some e)
  | .ret none none => .crash
  | .ret (some repo) none =>
    let afterCommit : GoResult (List Object) :=
      if opt.CommitFiles && opt.CommitMessages then
        objectsFromCommit repo opt.CommitFiles opt.CommitMessages opt.CommitCount
      else .ret (some []) none
    match afterCommit with
    | .crash => .crash
    | .ret _ (some e) => .ret none (some e)
    | .ret lc none =>
      let objectList := lc.getD []
      if opt.StagedFiles then
        match objectsFromStagedFiles repo with
        | .crash => .crash
        | .ret _ (some e) => .ret none (some e)
        | .ret ls none => .ret (some (objectList ++ ls.getD [])) none
      else .ret (some objectList) none

/-- Go `LoadObjects`: the primary entry point. -/
def LoadObjects (w : World) (source : String) (opta : LoadOptions) : GoResult (List Object) :=
  loadObjectsWith w source (prepareGitLoadOptions opta)

/-! Section: Grammar predicates for the locator claims -/

/-- The remote-locator language the regex actually recognizes, stated
independently of the parser as an explicit decomposition: one of the five
scheme heads, a nonempty host without `:`, `|`, `/`, a separator `/` or
`:`, a nonempty org without `/`, a `/`, a nonempty repo word without `/`
and `.`, then one arbitrary NON-NEWLINE character (the regex's unescaped
dot) followed by `git`, at the very end. -/
def RemoteGrammar (s : List Char) : Prop :=
  ∃ (scheme host org rp : List Char) (sep c : Char),
    (scheme = "http://".toList ∨ scheme = "https://".toList ∨
      scheme = "git://".toList ∨ scheme = "ssh://".toList ∨ scheme = "git@".toList) ∧
    host ≠ [] ∧ host.all hostOk = true ∧
    (sep = '/' ∨ sep = ':') ∧
    org ≠ [] ∧ org.all orgOk = true ∧
    rp ≠ [] ∧ rp.all repoOk = true ∧
    dotOk c = true ∧
    s = scheme ++ host ++ sep :: (org ++ '/' :: (rp ++ c :: ['g', 'i', 't']))

/-- The remote-locator grammar exactly as claim C2 words it: the same
shape, but with an unconstrained host and with a LITERAL `.git` suffix. -/
def ClaimedRemoteGrammar (s : List Char) : Prop :=
  ∃ (scheme host org rp : List Char) (sep : Char),
    (scheme = "http://".toList ∨ scheme = "https://".toList ∨
      scheme = "git://".toList ∨ scheme = "ssh://".toList ∨ scheme = "git@".toList) ∧
    (sep = '/' ∨ sep = ':') ∧
    org ≠ [] ∧ org.all orgOk = true ∧
    rp ≠ [] ∧ rp.all repoOk = true ∧
    s = scheme ++ host ++ sep :: (org ++ '/' :: (rp ++ '.' :: ['g', 'i', 't']))

/-! Section: Spec-side description of the staged extractor (for the refinement
claim C4) -/

/-- Spec-side description of the staged extractor's output at one index
entry: an entry whose content is unchanged relative to HEAD yields nothing,
a changed entry with a resolvable blob yields one `file-content` object
with id = path, payload = blob bytes and metadata `status = "staged"`. -/
def stagedSpecObject (repo : Repo) (entry : IndexEntry) : Option Object :=
  match repo.statusFile entry.path, repo.blobs entry.oid with
  | .ok status, .ok contents =>
    if status ≠ statusCurrent then
      some ((NewObject entry.path sourceTypeName "file-content"
        contents).SetMetadata "status" "staged" ⟨false⟩)
    else none
  | _, _ => none

/-- The objects the history extractor derives from a list of visited
commits, when no visited commit makes the callback panic. -/
def historyObjects (repo : Repo) (commitFiles commitMessages : Bool)
    (cs : List Commit) : List Object :=
  (cs.map (fun c => (walkIterateBody repo commitFiles commitMessages c).getD [])).flatten

/-- Decidable success test for an engine call result. -/
def okB {α : Type} : Except GitError α → Bool
  | .ok _ => true
  | .error _ => false

/-- Does the staged loop need the blob of this entry (status readable and
not `StatusCurrent`)? -/
def stagedNeedsBlob (repo : Repo) (entry : IndexEntry) : Bool :=
  match repo.statusFile entry.path with
  | .ok status => status ≠ statusCurrent
  | .error _ => false

/-! Section: Concrete fixtures used by the witnesses -/

/-- A commit whose tree has one blob. -/
def commitA : Commit := ⟨"a1", "first commit", 1, .ok [⟨"", "f.txt", .blob, "oidA"⟩]⟩

/-- A later commit: two blobs (one under a directory) and a tree entry. -/
def commitB : Commit :=
  ⟨"b2", "second commit", 2,
    .ok [⟨"", "f.txt", .blob, "oidB"⟩, ⟨"dir/", "g.bin", .blob, "oidG"⟩,
      ⟨"", "dir", .tree, "oidT"⟩]⟩

/-- A commit whose tree cannot be obtained. -/
def commitBad : Commit := ⟨"c3", "broken tree", 3, .error "tree lookup failed"⟩

/-- Blob store shared by the fixture repositories. -/
def testBlobs : String → Except GitError String := fun oid =>
  if oid = "oidA" then .ok "alpha"
  else if oid = "oidB" then .ok "beta"
  else if oid = "oidG" then .ok "gamma"
  else .error "blob not found"

/-- File status of the fixture index: `f.txt` unchanged, `g.txt` staged. -/
def testStatus : String → Except GitError Nat := fun p =>
  if p = "f.txt" then .ok statusCurrent
  else if p = "g.txt" then .ok 258
  else .error "status failed"

/-- A healthy two-commit repository with a two-entry index. -/
def testRepo : Repo :=
  { commits := [commitB, commitA], walkErr := none, pushHeadErr := none,
    iterateErr := none, blobs := testBlobs,
    indexRes := .ok [⟨"f.txt", "oidB"⟩, ⟨"g.txt", "oidG"⟩],
    statusFile := testStatus }

/-- A repository whose tip commit's tree lookup fails. -/
def treeFailRepo : Repo :=
  { commits := [commitBad, commitA], walkErr := none, pushHeadErr := none,
    iterateErr := none, blobs := testBlobs, indexRes := .ok [],
    statusFile := testStatus }

/-- A repository whose staging index cannot be read. -/
def stagedFailRepo : Repo :=
  { commits := [commitB, commitA], walkErr := none, pushHeadErr := none,
    iterateErr := none, blobs := testBlobs, indexRes := .error "index error",
    statusFile := testStatus }

/-- The fixture environment: two local repositories, no reachable remote. -/
def testWorld : World :=
  { localRepo := fun s =>
      if s = "/repo" then .ok testRepo
      else if s = "/badstaged" then .ok stagedFailRepo
      else .error "repository not found",
    tempDir := .ok "/tmp/seekret123",
    clone := fun _ _ => .error "clone failed" }

/-- An option map enabling only `commit-files`. -/
def optsFilesOnly : LoadOptions := [("commit-files", .b true)]

/-- An option map enabling all three extraction flags. -/
def optsAll : LoadOptions :=
  [("commit-files", .b true), ("commit-messages", .b true), ("staged-files", .b true)]

/-! Section: theorems

First, small list lemmas used to reason about the deterministic regex
parser, then the parser/grammar correspondence, then the claims. -/

theorem all_takeWhile_self {α : Type} (p : α → Bool) (l : List α) :
    (l.takeWhile p).all p = true := by
  induction l with
  | nil => rfl
  | cons a t ih =>
    by_cases h : p a
    · simp [List.takeWhile_cons_of_pos h, h, ih]
    · simp [List.takeWhile_cons_of_neg h]

theorem takeWhile_append_cons {α : Type} (p : α → Bool) (l1 : List α) (c : α) (l2 : List α)
    (h1 : l1.all p = true) (hc : p c = false) :
    (l1 ++ c :: l2).takeWhile p = l1 := by
  induction l1 with
  | nil => simp [List.takeWhile_cons, hc]
  | cons a t ih =>
    simp only [List.all_cons, Bool.and_eq_true] at h1
    simp [List.cons_append, List.takeWhile_cons_of_pos h1.1, ih h1.2]

theorem dropWhile_append_cons {α : Type} (p : α → Bool) (l1 : List α) (c : α) (l2 : List α)
    (h1 : l1.all p = true) (hc : p c = false) :
    (l1 ++ c :: l2).dropWhile p = c :: l2 := by
  induction l1 with
  | nil => simp [List.dropWhile_cons, hc]
  | cons a t ih =>
    simp only [List.all_cons, Bool.and_eq_true] at h1
    simp [List.cons_append, List.dropWhile_cons_of_pos h1.1, ih h1.2]

theorem dropWhile_head_false {α : Type} (p : α → Bool) (l : List α) (c : α) (l2 : List α)
    (h : l.dropWhile p = c :: l2) : p c = false := by
  induction l with
  | nil => simp at h
  | cons a t ih =>
    by_cases hp : p a
    · rw [List.dropWhile_cons_of_pos hp] at h
      exact ih h
    · rw [List.dropWhile_cons_of_neg hp] at h
      injection h with h1 h2
      subst h1
      simpa using hp

theorem eatToken_sound : ∀ (pat s rest : List Char),
    eatToken pat s = some rest → s = pat ++ rest := by
  intro pat
  induction pat with
  | nil =>
    intro s rest h
    simp only [eatToken, Option.some.injEq] at h
    simp [h]
  | cons p ps ih =>
    intro s rest h
    cases s with
    | nil => simp [eatToken] at h
    | cons c t =>
      simp only [eatToken] at h
      by_cases hc : c = p
      · rw [if_pos hc] at h
        subst hc
        simp [ih t rest h]
      · rw [if_neg hc] at h
        exact absurd h (by simp)

theorem eatToken_self (pat rest : List Char) : eatToken pat (pat ++ rest) = some rest := by
  induction pat with
  | nil => rfl
  | cons p ps ih => simp [eatToken, ih]

theorem matchScheme_inv {s u1 u2 rest : List Char}
    (h : matchScheme s = some (u1, u2, rest)) :
    (u1 = "http".toList ∧ u2 = [] ∧ s = "http://".toList ++ rest) ∨
    (u1 = "https".toList ∧ u2 = [] ∧ s = "https://".toList ++ rest) ∨
    (u1 = "git".toList ∧ u2 = [] ∧ s = "git://".toList ++ rest) ∨
    (u1 = "ssh".toList ∧ u2 = [] ∧ s = "ssh://".toList ++ rest) ∨
    (u1 = [] ∧ u2 = "git@".toList ∧ s = "git@".toList ++ rest) := by
  unfold matchScheme at h
  cases e1 : eatToken "http://".toList s with
  | some r =>
    rw [e1] at h
    simp only [Option.some.injEq, Prod.mk.injEq] at h
    obtain ⟨h1, h2, h3⟩ := h
    exact Or.inl ⟨h1.symm, h2.symm, h3 ▸ eatToken_sound _ _ _ e1⟩
  | none =>
  rw [e1] at h
  cases e2 : eatToken "https://".toList s with
  | some r =>
    rw [e2] at h
    simp only [Option.some.injEq, Prod.mk.injEq] at h
    obtain ⟨h1, h2, h3⟩ := h
    exact Or.inr (Or.inl ⟨h1.symm, h2.symm, h3 ▸ eatToken_sound _ _ _ e2⟩)
  | none =>
  rw [e2] at h
  cases e3 : eatToken "git://".toList s with
  | some r =>
    rw [e3] at h
    simp only [Option.some.injEq, Prod.mk.injEq] at h
    obtain ⟨h1, h2, h3⟩ := h
    exact Or.inr (Or.inr (Or.inl ⟨h1.symm, h2.symm, h3 ▸ eatToken_sound _ _ _ e3⟩))
  | none =>
  rw [e3] at h
  cases e4 : eatToken "ssh://".toList s with
  | some r =>
    rw [e4] at h
    simp only [Option.some.injEq, Prod.mk.injEq] at h
    obtain ⟨h1, h2, h3⟩ := h
    exact Or.inr (Or.inr (Or.inr (Or.inl ⟨h1.symm, h2.symm, h3 ▸ eatToken_sound _ _ _ e4⟩)))
  | none =>
  rw [e4] at h
  cases e5 : eatToken "git@".toList s with
  | some r =>
    rw [e5] at h
    simp only [Option.some.injEq, Prod.mk.injEq] at h
    obtain ⟨h1, h2, h3⟩ := h
    exact Or.inr (Or.inr (Or.inr (Or.inr ⟨h1.symm, h2.symm, h3 ▸ eatToken_sound _ _ _ e5⟩)))
  | none =>
    rw [e5] at h
    exact absurd h (by simp)

theorem matchScheme_http (rest : List Char) :
    matchScheme ("http://".toList ++ rest) = some ("http".toList, [], rest) := by
  unfold matchScheme
  rw [eatToken_self]

theorem matchScheme_https (rest : List Char) :
    matchScheme ("https://".toList ++ rest) = some ("https".toList, [], rest) := by
  unfold matchScheme
  rw [show eatToken "http://".toList ("https://".toList ++ rest) = none from rfl,
    eatToken_self]

theorem matchScheme_gitproto (rest : List Char) :
    matchScheme ("git://".toList ++ rest) = some ("git".toList, [], rest) := by
  unfold matchScheme
  rw [show eatToken "http://".toList ("git://".toList ++ rest) = none from rfl,
    show eatToken "https://".toList ("git://".toList ++ rest) = none from rfl,
    eatToken_self]

theorem matchScheme_ssh (rest : List Char) :
    matchScheme ("ssh://".toList ++ rest) = some ("ssh".toList, [], rest) := by
  unfold matchScheme
  rw [show eatToken "http://".toList ("ssh://".toList ++ rest) = none from rfl,
    show eatToken "https://".toList ("ssh://".toList ++ rest) = none from rfl,
    show eatToken "git://".toList ("ssh://".toList ++ rest) = none from rfl,
    eatToken_self]

theorem matchScheme_gitat (rest : List Char) :
    matchScheme ("git@".toList ++ rest) = some ([], "git@".toList, rest) := by
  unfold matchScheme
  rw [show eatToken "http://".toList ("git@".toList ++ rest) = none from rfl,
    show eatToken "https://".toList ("git@".toList ++ rest) = none from rfl,
    show eatToken "git://".toList ("git@".toList ++ rest) = none from rfl,
    show eatToken "ssh://".toList ("git@".toList ++ rest) = none from rfl,
    eatToken_self]

theorem matchGitUri_of_parts {s u1 u2 : List Char} (host org rp : List Char) (sep c : Char)
    (hhost : host ≠ []) (hhostok : host.all hostOk = true)
    (hsep : sep = '/' ∨ sep = ':')
    (horg : org ≠ []) (horgok : org.all orgOk = true)
    (hrp : rp ≠ []) (hrpok : rp.all repoOk = true)
    (hc : dotOk c = true)
    (hs : matchScheme s =
      some (u1, u2, host ++ sep :: (org ++ '/' :: (rp ++ c :: ['g', 'i', 't'])))) :
    matchGitUri s = some ⟨u1, u2, host, org, rp, c :: ['g', 'i', 't']⟩ := by
  have hsepF : hostOk sep = false := by rcases hsep with rfl | rfl <;> rfl
  have hslash : orgOk '/' = false := rfl
  have htw := takeWhile_append_cons hostOk host sep
    (org ++ '/' :: (rp ++ c :: ['g', 'i', 't'])) hhostok hsepF
  have hdw := dropWhile_append_cons hostOk host sep
    (org ++ '/' :: (rp ++ c :: ['g', 'i', 't'])) hhostok hsepF
  have htw2 := takeWhile_append_cons orgOk org '/' (rp ++ c :: ['g', 'i', 't']) horgok hslash
  have hdw2 := dropWhile_append_cons orgOk org '/' (rp ++ c :: ['g', 'i', 't']) horgok hslash
  have hlen : (rp ++ c :: ['g', 'i', 't']).length = rp.length + 4 := by simp
  have hrl : 1 ≤ rp.length := List.length_pos.mpr hrp
  have htk : (rp ++ c :: ['g', 'i', 't']).take ((rp ++ c :: ['g', 'i', 't']).length - 4) = rp := by
    rw [hlen]
    exact List.take_left' (by omega)
  have hdk : (rp ++ c :: ['g', 'i', 't']).drop ((rp ++ c :: ['g', 'i', 't']).length - 4)
      = c :: ['g', 'i', 't'] := by
    rw [hlen]
    exact List.drop_left' (by omega)
  have hsepT : (sep == '/' || sep == ':') = true := by rcases hsep with rfl | rfl <;> rfl
  have hhostE : host.isEmpty = false := by
    cases host with
    | nil => exact absurd rfl hhost
    | cons a t => rfl
  have horgE : org.isEmpty = false := by
    cases org with
    | nil => exact absurd rfl horg
    | cons a t => rfl
  have h5 : decide (5 ≤ (rp ++ c :: ['g', 'i', 't']).length) = true := by
    rw [hlen]
    exact decide_eq_true (by omega)
  unfold matchGitUri
  rw [hs]
  simp only [htw, hdw, hsepT, hhostE, Bool.not_false, Bool.and_self, if_true, htw2, hdw2,
    horgE, h5, Bool.and_true, htk, hdk, hrpok, hc, List.drop_succ_cons, List.drop_zero]
  simp [hc]

theorem matchGitUri_sound {s : List Char} {u : RemoteParts}
    (h : matchGitUri s = some u) : RemoteGrammar s := by
  unfold matchGitUri at h
  cases hms : matchScheme s with
  | none => rw [hms] at h; exact absurd h (by simp)
  | some t =>
    obtain ⟨u1, u2, rest⟩ := t
    rw [hms] at h
    simp only at h
    cases hdw : rest.dropWhile hostOk with
    | nil => rw [hdw] at h; exact absurd h (by simp)
    | cons sep rest2 =>
      rw [hdw] at h
      simp only at h
      by_cases hcond : ((sep == '/' || sep == ':') && !(rest.takeWhile hostOk).isEmpty) = true
      case neg =>
        rw [if_neg (by simpa using hcond)] at h
        exact absurd h (by simp)
      case pos =>
        rw [if_pos (by simpa using hcond)] at h
        simp only [Bool.and_eq_true, Bool.or_eq_true, beq_iff_eq,
          Bool.not_eq_true', List.isEmpty_eq_false] at hcond
        obtain ⟨hsep, hhostne⟩ := hcond
        cases hdw2 : rest2.dropWhile orgOk with
        | nil => rw [hdw2] at h; exact absurd h (by simp)
        | cons slash tail =>
          rw [hdw2] at h
          simp only at h
          by_cases hcond2 : (!(rest2.takeWhile orgOk).isEmpty && decide (5 ≤ tail.length)) = true
          case neg =>
            rw [if_neg (by simpa using hcond2)] at h
            exact absurd h (by simp)
          case pos =>
            rw [if_pos (by simpa using hcond2)] at h
            simp only [Bool.and_eq_true, Bool.not_eq_true', List.isEmpty_eq_false,
              decide_eq_true_eq] at hcond2
            obtain ⟨horgne, htlen⟩ := hcond2
            by_cases hcond3 : ((tail.drop (tail.length - 4)).drop 1 = ['g', 'i', 't'] ∧
                ((tail.drop (tail.length - 4)).take 1).all dotOk = true ∧
                (tail.take (tail.length - 4)).all repoOk = true)
            case neg =>
              rw [if_neg (by
                simp only [Bool.and_eq_true, decide_eq_true_eq]
                intro hx
                exact hcond3 ⟨by simpa using hx.1.1, hx.1.2, hx.2⟩)] at h
              exact absurd h (by simp)
            case pos =>
              obtain ⟨hsufgit, hsufdot, hrpall⟩ := hcond3
              rw [if_pos (by
                simp only [Bool.and_eq_true, decide_eq_true_eq]
                exact ⟨⟨by simpa using hsufgit, hsufdot⟩, hrpall⟩)] at h
              -- assemble the grammar decomposition
              have hslashEq : slash = '/' := by
                have := dropWhile_head_false orgOk rest2 slash tail hdw2
                simpa [orgOk] using this
              obtain ⟨host1, hH⟩ : ∃ x, rest.takeWhile hostOk = x := ⟨_, rfl⟩
              obtain ⟨org1, hO⟩ : ∃ x, rest2.takeWhile orgOk = x := ⟨_, rfl⟩
              obtain ⟨rp1, hR⟩ : ∃ x, tail.take (tail.length - 4) = x := ⟨_, rfl⟩
              have hostall : host1.all hostOk = true := by
                rw [← hH]; exact all_takeWhile_self _ _
              have orgall : org1.all orgOk = true := by
                rw [← hO]; exact all_takeWhile_self _ _
              have hhostne1 : host1 ≠ [] := by rw [← hH]; exact hhostne
              have horgne1 : org1 ≠ [] := by rw [← hO]; exact horgne
              have hrpall1 : rp1.all repoOk = true := by rw [← hR]; exact hrpall
              have hrest : rest = host1 ++ sep :: rest2 := by
                rw [← hH, ← hdw]
                exact (List.takeWhile_append_dropWhile hostOk rest).symm
              have hrest2x : rest2 = org1 ++ slash :: tail := by
                rw [← hO, ← hdw2]
                exact (List.takeWhile_append_dropWhile orgOk rest2).symm
              have hsuflen : (tail.drop (tail.length - 4)).length = 4 := by
                rw [List.length_drop]; omega
              obtain ⟨c, suftail, hsufshape⟩ :
                  ∃ c suftail, tail.drop (tail.length - 4) = c :: suftail := by
                cases hsd : tail.drop (tail.length - 4) with
                | nil => rw [hsd] at hsuflen; simp at hsuflen
                | cons c st => exact ⟨c, st, rfl⟩
              have hsufgit2 : suftail = ['g', 'i', 't'] := by
                have hx := hsufgit
                rw [hsufshape] at hx
                simpa using hx
              have hdotc : dotOk c = true := by
                have hx := hsufdot
                rw [hsufshape] at hx
                simpa using hx
              have hrpne1 : rp1 ≠ [] := by
                rw [← hR]
                have hlentake : (tail.take (tail.length - 4)).length = tail.length - 4 := by
                  rw [List.length_take]; omega
                intro hx
                rw [hx] at hlentake
                simp at hlentake
                omega
              have htail1 : rp1 ++ c :: ['g', 'i', 't'] = tail := by
                rw [← hR, ← hsufgit2, ← hsufshape]
                exact List.take_append_drop _ _
              rcases matchScheme_inv hms with ⟨hp, ha, hseq⟩ | ⟨hp, ha, hseq⟩ |
                ⟨hp, ha, hseq⟩ | ⟨hp, ha, hseq⟩ | ⟨hp, ha, hseq⟩
              · exact ⟨"http://".toList, host1, org1, rp1, sep, c, Or.inl rfl, hhostne1,
                  hostall, hsep, horgne1, orgall, hrpne1, hrpall1, hdotc, by
                    rw [hseq, hrest, hrest2x, hslashEq, ← htail1]
                    simp [List.append_assoc]⟩
              · exact ⟨"https://".toList, host1, org1, rp1, sep, c, Or.inr (Or.inl rfl),
                  hhostne1, hostall, hsep, horgne1, orgall, hrpne1, hrpall1, hdotc, by
                    rw [hseq, hrest, hrest2x, hslashEq, ← htail1]
                    simp [List.append_assoc]⟩
              · exact ⟨"git://".toList, host1, org1, rp1, sep, c,
                  Or.inr (Or.inr (Or.inl rfl)), hhostne1, hostall, hsep, horgne1, orgall,
                  hrpne1, hrpall1, hdotc, by
                    rw [hseq, hrest, hrest2x, hslashEq, ← htail1]
                    simp [List.append_assoc]⟩
              · exact ⟨"ssh://".toList, host1, org1, rp1, sep, c,
                  Or.inr (Or.inr (Or.inr (Or.inl rfl))), hhostne1, hostall, hsep, horgne1,
                  orgall, hrpne1, hrpall1, hdotc, by
                    rw [hseq, hrest, hrest2x, hslashEq, ← htail1]
                    simp [List.append_assoc]⟩
              · exact ⟨"git@".toList, host1, org1, rp1, sep, c,
                  Or.inr (Or.inr (Or.inr (Or.inr rfl))), hhostne1, hostall, hsep, horgne1,
                  orgall, hrpne1, hrpall1, hdotc, by
                    rw [hseq, hrest, hrest2x, hslashEq, ← htail1]
                    simp [List.append_assoc]⟩

theorem matchGitUri_isSome_iff (s : List Char) :
    (matchGitUri s).isSome = true ↔ RemoteGrammar s := by
  constructor
  · intro h
    cases hm : matchGitUri s with
    | none => rw [hm] at h; simp at h
    | some u => exact matchGitUri_sound hm
  · rintro ⟨scheme, host, org, rp, sep, c, hscheme, hhost, hhostok, hsep, horg, horgok,
      hrp, hrpok, hdot, heq⟩
    have hassoc : s = scheme ++ (host ++ sep :: (org ++ '/' :: (rp ++ c :: ['g', 'i', 't']))) := by
      rw [heq]
      simp [List.append_assoc]
    have hms : ∃ u1 u2, matchScheme s =
        some (u1, u2, host ++ sep :: (org ++ '/' :: (rp ++ c :: ['g', 'i', 't']))) := by
      rcases hscheme with rfl | rfl | rfl | rfl | rfl
      · exact ⟨_, _, by rw [hassoc]; exact matchScheme_http _⟩
      · exact ⟨_, _, by rw [hassoc]; exact matchScheme_https _⟩
      · exact ⟨_, _, by rw [hassoc]; exact matchScheme_gitproto _⟩
      · exact ⟨_, _, by rw [hassoc]; exact matchScheme_ssh _⟩
      · exact ⟨_, _, by rw [hassoc]; exact matchScheme_gitat _⟩
    obtain ⟨u1, u2, hms⟩ := hms
    rw [matchGitUri_of_parts host org rp sep c hhost hhostok hsep horg horgok hrp hrpok hdot hms]
    rfl

theorem ends_dotgit_take4 (scheme host org rp : List Char) (sep : Char) :
    (scheme ++ host ++ sep :: (org ++ '/' :: (rp ++ '.' :: ['g', 'i', 't']))).reverse.take 4
      = ['t', 'i', 'g', '.'] := by
  have hsplit : scheme ++ host ++ sep :: (org ++ '/' :: (rp ++ '.' :: ['g', 'i', 't']))
      = (scheme ++ host ++ sep :: (org ++ '/' :: rp)) ++ '.' :: ['g', 'i', 't'] := by
    simp [List.append_assoc]
  rw [hsplit, List.reverse_append]
  rfl

/-- C2, counterexample: the regex's suffix group is `(.git)` with an
UNESCAPED dot, so `https://github.com/org/repoXgit` — which does not carry
the literal `.git` suffix claim C2 requires, hence lies outside the claimed
grammar — is nevertheless classified as remote. -/
theorem claim_c2_counterexample :
    (normalizeGitUri "https://github.com/org/repoXgit").2 = true ∧
    ¬ ClaimedRemoteGrammar ("https://github.com/org/repoXgit".toList) := by
  refine ⟨by decide, ?_⟩
  rintro ⟨scheme, host, org, rp, sep, -, -, -, -, -, -, heq⟩
  have h4 := ends_dotgit_take4 scheme host org rp sep
  rw [← heq] at h4
  exact absurd h4 (by decide)

/-- C2 (amended): `normalizeGitUri` classifies a string as remote exactly
when it matches the grammar `<scheme><host><sep><org>/<repo><c>git` where
`<scheme>` is `http://`, `https://`, `git://`, `ssh://` or `git@`, the host
is nonempty without `:`, `|` or `/`, `<sep>` is `/` or `:`, the org is
nonempty without `/`, the repo word is nonempty without `/` and `.`, and
`<c>` is one arbitrary NON-NEWLINE character (the regex spells the suffix
`(.git)` with an unescaped dot, which matches any character except newline,
not a literal `.git`); every string outside this grammar is returned
unchanged with `isRemote = false`. -/
theorem claim_c2_amended (source : String) :
    ((normalizeGitUri source).2 = true ↔ RemoteGrammar source.toList) ∧
    (¬ RemoteGrammar source.toList → normalizeGitUri source = (source, false)) := by
  constructor
  · rw [← matchGitUri_isSome_iff]
    unfold normalizeGitUri
    cases hm : matchGitUri source.toList with
    | none => simp
    | some u => simp
  · intro hng
    have hnone : matchGitUri source.toList = none := by
      cases hm : matchGitUri source.toList with
      | none => rfl
      | some u => exact absurd (matchGitUri_sound hm) hng
    unfold normalizeGitUri
    rw [hnone]

/-- C2, witness: the amended characterization applied to the concrete local
path of the spec's examples. -/
theorem claim_c2_witness :
    normalizeGitUri "/home/user/widget" = ("/home/user/widget", false) :=
  (claim_c2_amended "/home/user/widget").2 (fun hg =>
    absurd ((matchGitUri_isSome_iff "/home/user/widget".toList).mpr hg) (by decide))

/-- C7: the scp-like form `git@host:org/repo.git` is rewritten to
`ssh://git@host/org/repo.git` (protocol defaulted to `ssh`, the `git@`
token kept, the `:` separator replaced by `/`) and classified remote; a
form with explicit protocol `https://host/org/repo.git` is returned
unchanged and classified remote; the plain local path `/home/user/widget`
is returned unchanged and classified local. -/
theorem claim_c7_normalize_examples (host org repo : String)
    (hh : host.toList ≠ []) (hhok : host.toList.all hostOk = true)
    (ho : org.toList ≠ []) (hook : org.toList.all orgOk = true)
    (hr : repo.toList ≠ []) (hrok : repo.toList.all repoOk = true) :
    normalizeGitUri ("git@" ++ host ++ ":" ++ org ++ "/" ++ repo ++ ".git") =
      ("ssh://git@" ++ host ++ "/" ++ org ++ "/" ++ repo ++ ".git", true) ∧
    normalizeGitUri ("https://" ++ host ++ "/" ++ org ++ "/" ++ repo ++ ".git") =
      ("https://" ++ host ++ "/" ++ org ++ "/" ++ repo ++ ".git", true) ∧
    normalizeGitUri "/home/user/widget" = ("/home/user/widget", false) := by
  refine ⟨?_, ?_, by decide⟩
  · have h1 : ("git@" ++ host ++ ":" ++ org ++ "/" ++ repo ++ ".git").toList
        = "git@".toList ++ (host.toList ++ ':' ::
          (org.toList ++ '/' :: (repo.toList ++ '.' :: ['g', 'i', 't']))) := by
      simp only [String.toList, String.data_append]
      simp [List.append_assoc]
    have hm := matchGitUri_of_parts (s := ("git@" ++ host ++ ":" ++ org ++ "/" ++ repo
        ++ ".git").toList) host.toList org.toList repo.toList ':' '.'
      hh hhok (Or.inr rfl) ho hook hr hrok (by decide)
      (by rw [h1]; exact matchScheme_gitat _)
    unfold normalizeGitUri
    rw [hm]
    show (String.mk ("ssh".toList ++ "://".toList ++ "git@".toList ++ host.toList ++ ['/'] ++
        org.toList ++ ['/'] ++ repo.toList ++ ['.', 'g', 'i', 't']), true)
      = ("ssh://git@" ++ host ++ "/" ++ org ++ "/" ++ repo ++ ".git", true)
    refine Prod.ext (congrArg String.mk ?_) rfl
    simp only [String.toList, String.data_append]
    simp [List.append_assoc]
  · have h1 : ("https://" ++ host ++ "/" ++ org ++ "/" ++ repo ++ ".git").toList
        = "https://".toList ++ (host.toList ++ '/' ::
          (org.toList ++ '/' :: (repo.toList ++ '.' :: ['g', 'i', 't']))) := by
      simp only [String.toList, String.data_append]
      simp [List.append_assoc]
    have hm := matchGitUri_of_parts (s := ("https://" ++ host ++ "/" ++ org ++ "/" ++ repo
        ++ ".git").toList) host.toList org.toList repo.toList '/' '.'
      hh hhok (Or.inl rfl) ho hook hr hrok (by decide)
      (by rw [h1]; exact matchScheme_https _)
    unfold normalizeGitUri
    rw [hm]
    show (String.mk ("https".toList ++ "://".toList ++ [] ++ host.toList ++ ['/'] ++
        org.toList ++ ['/'] ++ repo.toList ++ ['.', 'g', 'i', 't']), true)
      = ("https://" ++ host ++ "/" ++ org ++ "/" ++ repo ++ ".git", true)
    refine Prod.ext (congrArg String.mk ?_) rfl
    simp only [String.toList, String.data_append]
    simp [List.append_assoc]

/-- C7, witness: the three concrete examples of the spec. -/
theorem claim_c7_witness :
    normalizeGitUri "git@github.com:acme/widget.git"
      = ("ssh://git@github.com/acme/widget.git", true) ∧
    normalizeGitUri "https://github.com/acme/widget.git"
      = ("https://github.com/acme/widget.git", true) ∧
    normalizeGitUri "/home/user/widget" = ("/home/user/widget", false) :=
  claim_c7_normalize_examples "github.com" "acme" "widget"
    (by decide) (by decide) (by decide) (by decide) (by decide) (by decide)

/-! Section: Lemmas about the commit walk -/

theorem iterateCommits_eq (repo : Repo) (cf cm : Bool) (cs : List Commit) (acc : List Object)
    (h : ∀ c ∈ cs, (walkIterateBody repo cf cm c).isSome = true) :
    iterateCommits repo cf cm cs acc = some (acc ++ historyObjects repo cf cm cs) := by
  induction cs generalizing acc with
  | nil => simp [iterateCommits, historyObjects]
  | cons c rest ih =>
    have hc := h c (List.mem_cons_self c rest)
    cases hw : walkIterateBody repo cf cm c with
    | none => rw [hw] at hc; simp at hc
    | some objs =>
      simp only [iterateCommits, hw]
      rw [ih (acc ++ objs) (fun x hx => h x (List.mem_cons_of_mem c hx))]
      simp [historyObjects, hw, List.append_assoc]

theorem objectsFromCommit_clean (repo : Repo) (cf cm : Bool) (count : Int)
    (visited : List Commit)
    (hw : repo.walkErr = none) (hi : repo.iterateErr = none)
    (hvisited : pushCommits repo count = .ok visited)
    (hn : ∀ c ∈ visited, (walkIterateBody repo cf cm c).isSome = true) :
    objectsFromCommit repo cf cm count
      = .ret (some (historyObjects repo cf cm visited)) none := by
  unfold objectsFromCommit
  simp only [hw, hvisited]
  rw [iterateCommits_eq repo cf cm visited [] hn, hi]
  simp

/-- C3: with a healthy walk, `commitCount = 0` visits every reachable
commit; `1 ≤ n <` (number of commits) visits exactly the `n` most recent
commits (the walk order is commit-time descending, so under sortedness the
taken commits dominate the dropped ones in commit time); and `n ≥` (number
of commits), where the engine rejects the bounded range, falls back to
visiting the whole history instead of returning an error. -/
theorem claim_c3_commit_count (repo : Repo) (cf cm : Bool)
    (hw : repo.walkErr = none) (hph : repo.pushHeadErr = none) (hi : repo.iterateErr = none)
    (hn : ∀ c ∈ repo.commits, (walkIterateBody repo cf cm c).isSome = true) :
    (objectsFromCommit repo cf cm 0
      = .ret (some (historyObjects repo cf cm repo.commits)) none) ∧
    (∀ n : Nat, 1 ≤ n → n < repo.commits.length →
      objectsFromCommit repo cf cm (n : Int)
        = .ret (some (historyObjects repo cf cm (repo.commits.take n))) none) ∧
    (∀ n : Nat, repo.commits.length ≤ n →
      objectsFromCommit repo cf cm (n : Int)
        = .ret (some (historyObjects repo cf cm repo.commits)) none) ∧
    (List.Pairwise (fun a b => b.time ≤ a.time) repo.commits →
      ∀ n : Nat, ∀ c ∈ repo.commits.take n, ∀ c2 ∈ repo.commits.drop n,
        c2.time ≤ c.time) := by
  refine ⟨?_, ?_, ?_, ?_⟩
  · have hv : pushCommits repo 0 = .ok repo.commits := by
      unfold pushCommits
      rw [if_neg (by omega : ¬ ((0 : Int) > 0)), hph]
    exact objectsFromCommit_clean repo cf cm 0 repo.commits hw hi hv hn
  · intro n h1 h2
    have hv : pushCommits repo (n : Int) = .ok (repo.commits.take n) := by
      unfold pushCommits
      rw [if_pos (by exact_mod_cast Nat.pos_of_ne_zero (by omega))]
      rw [if_pos (by unfold pushRangeOk; exact decide_eq_true (by exact_mod_cast h2))]
      rw [Int.toNat_natCast]
    exact objectsFromCommit_clean repo cf cm (n : Int) (repo.commits.take n) hw hi hv
      (fun c hc => hn c (List.mem_of_mem_take hc))
  · intro n hk
    have hnr : pushRangeOk repo (n : Int) = false := by
      unfold pushRangeOk
      simp only [decide_eq_false_iff_not, not_lt]
      exact_mod_cast hk
    by_cases h0 : (0 : Int) < (n : Int)
    · have hv : pushCommits repo (n : Int) = .ok repo.commits := by
        unfold pushCommits
        rw [if_pos h0, hnr, hph]
        simp
      exact objectsFromCommit_clean repo cf cm (n : Int) repo.commits hw hi hv hn
    · have hv : pushCommits repo (n : Int) = .ok repo.commits := by
        unfold pushCommits
        rw [if_neg h0, hph]
      exact objectsFromCommit_clean repo cf cm (n : Int) repo.commits hw hi hv hn
  · intro hsorted n c hc c2 hc2
    have hx := hsorted
    rw [← List.take_append_drop n repo.commits] at hx
    exact (List.pairwise_append.mp hx).2.2 c hc c2 hc2

/-- C3, witness: the two-commit fixture at counts 0, 1 and 5. -/
theorem claim_c3_witness :
    objectsFromCommit testRepo true true 0
      = .ret (some (historyObjects testRepo true true testRepo.commits)) none ∧
    objectsFromCommit testRepo true true ((1 : Nat) : Int)
      = .ret (some (historyObjects testRepo true true (testRepo.commits.take 1))) none ∧
    objectsFromCommit testRepo true true ((5 : Nat) : Int)
      = .ret (some (historyObjects testRepo true true testRepo.commits)) none := by
  have h := claim_c3_commit_count testRepo true true rfl rfl rfl (by decide)
  exact ⟨h.1, h.2.1 1 (by decide) (by decide), h.2.2.1 5 (by decide)⟩

/-- C10: a non-positive `commitCount` behaves exactly like 0 — the bounded
range is never attempted, the branch head is pushed and (when `PushHead`
succeeds) the entire reachable history is walked. -/
theorem claim_c10_nonpositive_count (repo : Repo) (cf cm : Bool) (count : Int)
    (hcount : count ≤ 0) :
    objectsFromCommit repo cf cm count = objectsFromCommit repo cf cm 0 ∧
    (repo.pushHeadErr = none → pushCommits repo count = .ok repo.commits) := by
  have hif : ¬ (count > 0) := by omega
  constructor
  · unfold objectsFromCommit pushCommits
    rw [if_neg hif, if_neg (by omega : ¬ ((0 : Int) > 0))]
  · intro hph
    unfold pushCommits
    rw [if_neg hif, hph]

/-- C10, witness: `commitCount = -3` on the fixture. -/
theorem claim_c10_witness :
    objectsFromCommit testRepo true true (-3) = objectsFromCommit testRepo true true 0 ∧
    pushCommits testRepo (-3) = .ok testRepo.commits := by
  have h := claim_c10_nonpositive_count testRepo true true (-3) (by omega)
  exact ⟨h.1, h.2 rfl⟩

/-- C5, the code evaluated at the failing input: when a visited commit's
tree lookup fails while `commitFiles` is enabled, the commit is NOT skipped
— the nil `*Tree` returned by the failed lookup is walked and the call
crashes with a nil-pointer dereference (modelled as `crash`), instead of
logging and continuing as the claim describes. -/
theorem claim_c5_tree_error_crash :
    objectsFromCommit treeFailRepo true true 0 = GoResult.crash := rfl

/-- C1: when exactly one of `commit-files`/`commit-messages` is enabled,
`LoadObjects` behaves exactly as if both were disabled — the commit-history
extractor contributes nothing, because the orchestrator runs it only under
the conjunction `CommitFiles && CommitMessages`. -/
theorem claim_c1_one_flag_no_history (w : World) (source : String) (o : LoadOptions)
    (hxor : (prepareGitLoadOptions o).CommitFiles ≠ (prepareGitLoadOptions o).CommitMessages) :
    LoadObjects w source o = loadObjectsWith w source
      { prepareGitLoadOptions o with CommitFiles := false, CommitMessages := false } := by
  unfold LoadObjects loadObjectsWith
  have hand : ((prepareGitLoadOptions o).CommitFiles
      && (prepareGitLoadOptions o).CommitMessages) = false := by
    cases hcf : (prepareGitLoadOptions o).CommitFiles <;>
      cases hcm : (prepareGitLoadOptions o).CommitMessages <;> simp_all
  simp [hand]

/-- C1, witness: an option map enabling only `commit-files`. -/
theorem claim_c1_witness :
    (prepareGitLoadOptions optsFilesOnly).CommitFiles
      ≠ (prepareGitLoadOptions optsFilesOnly).CommitMessages ∧
    LoadObjects testWorld "/repo" optsFilesOnly = loadObjectsWith testWorld "/repo"
      { prepareGitLoadOptions optsFilesOnly with
          CommitFiles := false, CommitMessages := false } :=
  ⟨by decide, claim_c1_one_flag_no_history testWorld "/repo" optsFilesOnly (by decide)⟩

/-- C9: with none of the three extraction flags enabled (for instance an
empty or unrecognized options map), `LoadObjects` still resolves the
repository — a successful open yields the empty object list with no error,
a failing open (including a failing clone of a remote locator) still
surfaces its error. -/
theorem claim_c9_no_flags_empty (w : World) (source : String) (o : LoadOptions)
    (hcf : (prepareGitLoadOptions o).CommitFiles = false)
    (_hcm : (prepareGitLoadOptions o).CommitMessages = false)
    (hsf : (prepareGitLoadOptions o).StagedFiles = false) :
    (∀ repo, openGitRepo w source = .ret (some repo) none →
      LoadObjects w source o = .ret (some []) none) ∧
    (∀ e, openGitRepo w source = .ret none (some e) →
      LoadObjects w source o = .ret none (some e)) ∧
    (∀ uri tmp e, normalizeGitUri source = (uri, true) → w.tempDir = .ok tmp →
      w.clone uri tmp = .error e → LoadObjects w source o = .ret none (some e)) := by
  have hand : ((prepareGitLoadOptions o).CommitFiles
      && (prepareGitLoadOptions o).CommitMessages) = false := by
    rw [hcf]
    rfl
  refine ⟨?_, ?_, ?_⟩
  · intro repo hopen
    unfold LoadObjects loadObjectsWith
    simp [hopen, hand, hsf]
  · intro e hopen
    unfold LoadObjects loadObjectsWith
    simp [hopen]
  · intro uri tmp e hnorm htmp hclone
    have hopen : openGitRepo w source = .ret none (some e) := by
      unfold openGitRepo openGitRepoRemote
      rw [hnorm]
      simp [htmp, hclone]
    unfold LoadObjects loadObjectsWith
    simp [hopen]

/-- C9, witness: the empty option map on the fixture repository and on a
nonexistent local path. -/
theorem claim_c9_witness :
    LoadObjects testWorld "/repo" [] = .ret (some []) none ∧
    LoadObjects testWorld "/nothere" [] = .ret none (some "repository not found") := by
  have h1 := claim_c9_no_flags_empty testWorld "/repo" [] rfl rfl rfl
  have h2 := claim_c9_no_flags_empty testWorld "/nothere" [] rfl rfl rfl
  exact ⟨h1.1 testRepo rfl, h2.2.1 "repository not found" rfl⟩

/-! Section: Lemmas about the staged extractor -/

theorem stagedLoop_eq (repo : Repo) (entries : List IndexEntry) (acc : List Object)
    (hst : ∀ e ∈ entries, okB (repo.statusFile e.path) = true)
    (hbl : ∀ e ∈ entries, stagedNeedsBlob repo e = true → okB (repo.blobs e.oid) = true) :
    stagedLoop repo entries acc
      = .ret (some (acc ++ entries.filterMap (stagedSpecObject repo))) none := by
  induction entries generalizing acc with
  | nil => simp [stagedLoop]
  | cons e rest ih =>
    have hse := hst e (List.mem_cons_self e rest)
    cases hsf : repo.statusFile e.path with
    | error err => rw [hsf] at hse; simp [okB] at hse
    | ok status =>
      by_cases hcur : status = statusCurrent
      · simp only [stagedLoop, hsf]
        rw [if_neg (by simp [hcur])]
        rw [ih acc (fun x hx => hst x (List.mem_cons_of_mem e hx))
          (fun x hx => hbl x (List.mem_cons_of_mem e hx))]
        cases hb : repo.blobs e.oid <;>
          simp [stagedSpecObject, hsf, hb, hcur]
      · have hnb := hbl e (List.mem_cons_self e rest)
          (by simp [stagedNeedsBlob, hsf, hcur])
        cases hb : repo.blobs e.oid with
        | error err => rw [hb] at hnb; simp [okB] at hnb
        | ok contents =>
          simp only [stagedLoop, hsf, hb]
          rw [if_pos hcur]
          rw [ih _ (fun x hx => hst x (List.mem_cons_of_mem e hx))
            (fun x hx => hbl x (List.mem_cons_of_mem e hx))]
          simp [stagedSpecObject, hsf, hb, hcur, List.append_assoc]

/-- C4: when every index entry's status is readable and every changed
entry's blob resolves, the staged extractor returns exactly one object per
index entry whose status differs from HEAD, in index order, with id = path,
payload = the blob referenced by the index entry, and metadata
`status = "staged"`; unchanged entries never appear. -/
theorem claim_c4_staged (repo : Repo) (entries : List IndexEntry)
    (hidx : repo.indexRes = .ok entries)
    (hst : ∀ e ∈ entries, okB (repo.statusFile e.path) = true)
    (hbl : ∀ e ∈ entries, stagedNeedsBlob repo e = true → okB (repo.blobs e.oid) = true) :
    objectsFromStagedFiles repo
      = .ret (some (entries.filterMap (stagedSpecObject repo))) none := by
  unfold objectsFromStagedFiles
  rw [hidx]
  simpa using stagedLoop_eq repo entries [] hst hbl

/-- C4, witness: the fixture index — `f.txt` unchanged (skipped), `g.txt`
staged (one object). -/
theorem claim_c4_witness :
    objectsFromStagedFiles testRepo
      = .ret (some ([⟨"f.txt", "oidB"⟩, ⟨"g.txt", "oidG"⟩].filterMap
          (stagedSpecObject testRepo))) none :=
  claim_c4_staged testRepo [⟨"f.txt", "oidB"⟩, ⟨"g.txt", "oidG"⟩] rfl
    (by decide) (by decide)

/-- C6: `LoadObjects` hands the caller either a list with no error or no
list with one error — every reachable `return` writes exactly one of the
two values — and in particular a staged-extractor failure discards the
history objects already collected. -/
theorem claim_c6_all_or_nothing :
    (∀ (w : World) (source : String) (o : LoadOptions) (p : Option (List Object))
      (q : Option GitError), LoadObjects w source o = .ret p q →
        ((∃ l, p = some l ∧ q = none) ∨ (p = none ∧ ∃ e, q = some e))) ∧
    (∀ (w : World) (source : String) (o : LoadOptions) (repo : Repo) (hist : List Object)
      (e : GitError),
      openGitRepo w source = .ret (some repo) none →
      (prepareGitLoadOptions o).CommitFiles = true →
      (prepareGitLoadOptions o).CommitMessages = true →
      objectsFromCommit repo (prepareGitLoadOptions o).CommitFiles
        (prepareGitLoadOptions o).CommitMessages (prepareGitLoadOptions o).CommitCount
        = .ret (some hist) none →
      hist ≠ [] →
      (prepareGitLoadOptions o).StagedFiles = true →
      objectsFromStagedFiles repo = .ret none (some e) →
      LoadObjects w source o = .ret none (some e)) := by
  constructor
  · intro w source o p q h
    unfold LoadObjects loadObjectsWith at h
    simp only [] at h
    repeat' split at h
    all_goals first
      | (simp only [GoResult.ret.injEq] at h
         obtain ⟨h1, h2⟩ := h
         subst h1
         subst h2
         first
           | exact Or.inl ⟨_, rfl, rfl⟩
           | exact Or.inr ⟨rfl, _, rfl⟩)
      | simp at h
  · intro w source o repo hist e hopen hcf hcm hcommit hne hsf hstaged
    have hand : ((prepareGitLoadOptions o).CommitFiles
        && (prepareGitLoadOptions o).CommitMessages) = true := by
      rw [hcf, hcm]
      rfl
    unfold LoadObjects loadObjectsWith
    simp [hopen, hand, hcommit, hsf, hstaged]

/-- C6, witness: on the fixture whose index read fails, the collected
history objects are discarded and only the index error is returned. -/
theorem claim_c6_witness :
    ((∃ l, (none : Option (List Object)) = some l
        ∧ (some "index error" : Option GitError) = none) ∨
      ((none : Option (List Object)) = none
        ∧ ∃ e, (some "index error" : Option GitError) = some e)) ∧
    LoadObjects testWorld "/badstaged" optsAll = .ret none (some "index error") := by
  have hload := claim_c6_all_or_nothing.2 testWorld "/badstaged" optsAll stagedFailRepo
    (historyObjects stagedFailRepo true true stagedFailRepo.commits) "index error"
    rfl (by decide) (by decide) (by decide) (by decide) (by decide) rfl
  exact ⟨claim_c6_all_or_nothing.1 testWorld "/badstaged" optsAll none
    (some "index error") hload, hload⟩

/-! Section: Lemmas about provenance metadata -/

theorem treeEntryObject_meta (repo : Repo) (c : Commit) (te : TreeEntry) (ob : Object)
    (h : treeEntryObject repo c te = some ob) : ob.hasMeta "commit" c.id = true := by
  unfold treeEntryObject at h
  split at h
  · cases hb : repo.blobs te.oid with
    | error e => rw [hb] at h; simp at h
    | ok contents =>
      rw [hb] at h
      simp only [Option.some.injEq] at h
      subst h
      simp [Object.hasMeta, NewObject, Object.SetMetadata]
  · simp at h

theorem walkIterateBody_meta (repo : Repo) (cf cm : Bool) (c : Commit) (objs : List Object)
    (hw : walkIterateBody repo cf cm c = some objs) :
    ∀ ob ∈ objs, ob.hasMeta "commit" c.id = true := by
  cases cf with
  | false =>
    cases cm with
    | false =>
      simp only [walkIterateBody, Bool.false_eq_true, if_false, Option.some.injEq] at hw
      subst hw
      intro ob hob
      simp at hob
    | true =>
      simp only [walkIterateBody, Bool.false_eq_true, if_false, if_true,
        Option.some.injEq] at hw
      subst hw
      intro ob hob
      simp only [List.mem_singleton] at hob
      subst hob
      simp [Object.hasMeta, NewObject, Object.SetMetadata]
  | true =>
    cases htr : c.treeRes with
    | error e => simp [walkIterateBody, htr] at hw
    | ok entries =>
      simp only [walkIterateBody, htr, if_true, Option.some.injEq] at hw
      subst hw
      intro ob hob
      rcases List.mem_append.mp hob with h1 | h2
      · cases cm with
        | false => simp at h1
        | true =>
          simp only [if_true, List.mem_singleton] at h1
          subst h1
          simp [Object.hasMeta, NewObject, Object.SetMetadata]
      · obtain ⟨te, hte, hteq⟩ := List.mem_filterMap.mp h2
        exact treeEntryObject_meta repo c te ob hteq

theorem iterateCommits_mem (repo : Repo) (cf cm : Bool) (cs : List Commit)
    (acc objs : List Object) (hit : iterateCommits repo cf cm cs acc = some objs) :
    ∀ ob ∈ objs, ob ∈ acc ∨ ∃ c, c ∈ cs ∧ ob.hasMeta "commit" c.id = true := by
  induction cs generalizing acc with
  | nil =>
    simp only [iterateCommits, Option.some.injEq] at hit
    subst hit
    intro ob hob
    exact Or.inl hob
  | cons c rest ih =>
    cases hw : walkIterateBody repo cf cm c with
    | none => simp [iterateCommits, hw] at hit
    | some newObjs =>
      simp only [iterateCommits, hw] at hit
      intro ob hob
      rcases ih (acc ++ newObjs) hit ob hob with hmem | ⟨c2, hc2, hm⟩
      · rcases List.mem_append.mp hmem with h1 | h2
        · exact Or.inl h1
        · exact Or.inr ⟨c, List.mem_cons_self c rest,
            walkIterateBody_meta repo cf cm c newObjs hw ob h2⟩
      · exact Or.inr ⟨c2, List.mem_cons_of_mem c hc2, hm⟩

theorem pushCommits_subset (repo : Repo) (count : Int) (visited : List Commit)
    (h : pushCommits repo count = .ok visited) : ∀ c ∈ visited, c ∈ repo.commits := by
  unfold pushCommits at h
  split at h
  · split at h
    · simp only [Except.ok.injEq] at h
      subst h
      exact fun c hc => List.mem_of_mem_take hc
    · cases hph : repo.pushHeadErr with
      | some e => rw [hph] at h; simp at h
      | none =>
        rw [hph] at h
        simp only [Except.ok.injEq] at h
        subst h
        exact fun c hc => hc
  · cases hph : repo.pushHeadErr with
    | some e => rw [hph] at h; simp at h
    | none =>
      rw [hph] at h
      simp only [Except.ok.injEq] at h
      subst h
      exact fun c hc => hc

theorem objectsFromCommit_meta (repo : Repo) (cf cm : Bool) (count : Int)
    (objs : List Object)
    (h : objectsFromCommit repo cf cm count = .ret (some objs) none) :
    ∀ ob ∈ objs, ∃ c, c ∈ repo.commits ∧ ob.hasMeta "commit" c.id = true := by
  unfold objectsFromCommit at h
  cases hw : repo.walkErr with
  | some e => simp [hw] at h
  | none =>
    cases hpc : pushCommits repo count with
    | error e => simp [hw, hpc] at h
    | ok visited =>
      cases hit : iterateCommits repo cf cm visited [] with
      | none => simp [hw, hpc, hit] at h
      | some objs0 =>
        cases hie : repo.iterateErr with
        | some e => simp [hw, hpc, hit, hie] at h
        | none =>
          have hobjs : objs0 = objs := by
            simp only [hw, hpc, hit, hie, GoResult.ret.injEq, Option.some.injEq,
              and_true] at h
            exact h
          subst hobjs
          intro ob hob
          rcases iterateCommits_mem repo cf cm visited [] objs0 hit ob hob with hmem | ⟨c, hc, hm⟩
          · simp at hmem
          · exact ⟨c, pushCommits_subset repo count visited hpc c hc, hm⟩

theorem stagedLoop_mem (repo : Repo) (entries : List IndexEntry) (acc objs : List Object)
    (h : stagedLoop repo entries acc = .ret (some objs) none) :
    ∀ ob ∈ objs, ob ∈ acc ∨ ob.hasMeta "status" "staged" = true := by
  induction entries generalizing acc with
  | nil =>
    simp only [stagedLoop, GoResult.ret.injEq, Option.some.injEq, and_true] at h
    subst h
    intro ob hob
    exact Or.inl hob
  | cons e rest ih =>
    cases hsf : repo.statusFile e.path with
    | error err => simp [stagedLoop, hsf] at h
    | ok status =>
      by_cases hcur : status = statusCurrent
      · have h' : stagedLoop repo rest acc = .ret (some objs) none := by
          simpa [stagedLoop, hsf, hcur] using h
        intro ob hob
        exact ih acc h' ob hob
      · cases hb : repo.blobs e.oid with
        | error err => simp [stagedLoop, hsf, hb, hcur] at h
        | ok contents =>
          have h' : stagedLoop repo rest (acc ++
              [(NewObject e.path sourceTypeName "file-content"
                contents).SetMetadata "status" "staged" ⟨false⟩]) = .ret (some objs) none := by
            simpa [stagedLoop, hsf, hb, hcur] using h
          intro ob hob
          rcases ih _ h' ob hob with hmem | hst
          · rcases List.mem_append.mp hmem with h1 | h2
            · exact Or.inl h1
            · simp only [List.mem_singleton] at h2
              subst h2
              exact Or.inr (by simp [Object.hasMeta, NewObject, Object.SetMetadata])
          · exact Or.inr hst

theorem objectsFromStagedFiles_meta (repo : Repo) (objs : List Object)
    (h : objectsFromStagedFiles repo = .ret (some objs) none) :
    ∀ ob ∈ objs, ob.hasMeta "status" "staged" = true := by
  unfold objectsFromStagedFiles at h
  cases hidx : repo.indexRes with
  | error e => simp [hidx] at h
  | ok entries =>
    rw [hidx] at h
    intro ob hob
    rcases stagedLoop_mem repo entries [] objs h ob hob with hmem | hst
    · simp at hmem
    · exact hst

theorem hasMeta_key (o : Object) (k v : String) (h : o.hasMeta k v = true) :
    o.hasMetaKey k = true := by
  simp only [Object.hasMeta, List.any_eq_true, Bool.and_eq_true] at h
  obtain ⟨m, hm, h1, -⟩ := h
  simp only [Object.hasMetaKey, List.any_eq_true]
  exact ⟨m, hm, h1⟩

/-- C8: provenance metadata — every object the history extractor returns
carries a `commit` entry holding the hash of a reachable commit, every
object the staged extractor returns carries `status = "staged"`, and hence
every object `LoadObjects` returns carries a `commit` or a `status`
metadata entry. -/
theorem claim_c8_provenance :
    (∀ (repo : Repo) (cf cm : Bool) (count : Int) (objs : List Object),
      objectsFromCommit repo cf cm count = .ret (some objs) none →
      ∀ ob ∈ objs, ∃ c, c ∈ repo.commits ∧ ob.hasMeta "commit" c.id = true) ∧
    (∀ (repo : Repo) (objs : List Object),
      objectsFromStagedFiles repo = .ret (some objs) none →
      ∀ ob ∈ objs, ob.hasMeta "status" "staged" = true) ∧
    (∀ (w : World) (source : String) (o : LoadOptions) (objs : List Object),
      LoadObjects w source o = .ret (some objs) none →
      ∀ ob ∈ objs, (ob.hasMetaKey "commit" || ob.hasMetaKey "status") = true) := by
  refine ⟨objectsFromCommit_meta, objectsFromStagedFiles_meta, ?_⟩
  intro w source o objs h
  unfold LoadObjects loadObjectsWith at h
  cases hopen : openGitRepo w source with
  | crash => simp [hopen] at h
  | ret pr qr =>
    cases qr with
    | some e => simp [hopen] at h
    | none =>
      cases pr with
      | none => simp [hopen] at h
      | some repo =>
        simp only [hopen] at h
        by_cases hflag : ((prepareGitLoadOptions o).CommitFiles
            && (prepareGitLoadOptions o).CommitMessages) = true
        · rw [if_pos hflag] at h
          cases hoc : objectsFromCommit repo (prepareGitLoadOptions o).CommitFiles
              (prepareGitLoadOptions o).CommitMessages
              (prepareGitLoadOptions o).CommitCount with
          | crash => simp [hoc] at h
          | ret lc qc =>
            cases qc with
            | some e => simp [hoc] at h
            | none =>
              simp only [hoc] at h
              by_cases hsf : (prepareGitLoadOptions o).StagedFiles = true
              · rw [if_pos hsf] at h
                cases hos : objectsFromStagedFiles repo with
                | crash => simp [hos] at h
                | ret ls qs =>
                  cases qs with
                  | some e => simp [hos] at h
                  | none =>
                    have hsplit : lc.getD [] ++ ls.getD [] = objs := by
                      simp only [hos, GoResult.ret.injEq, Option.some.injEq,
                        and_true] at h
                      exact h
                    intro ob hob
                    rw [← hsplit] at hob
                    rcases List.mem_append.mp hob with h1 | h2
                    · cases lc with
                      | none => simp at h1
                      | some hist =>
                        obtain ⟨c, -, hm⟩ :=
                          objectsFromCommit_meta repo _ _ _ hist hoc ob h1
                        simp [hasMeta_key ob "commit" c.id hm]
                    · cases ls with
                      | none => simp at h2
                      | some staged =>
                        have hm := objectsFromStagedFiles_meta repo staged hos ob h2
                        simp [hasMeta_key ob "status" "staged" hm]
              · rw [if_neg hsf] at h
                have hlc : lc.getD [] = objs := by
                  simp only [GoResult.ret.injEq, Option.some.injEq, and_true] at h
                  exact h
                subst hlc
                intro ob hob
                cases lc with
                | none => simp at hob
                | some hist =>
                  simp only [Option.getD_some] at hob
                  obtain ⟨c, -, hm⟩ := objectsFromCommit_meta repo _ _ _ hist hoc ob hob
                  simp [hasMeta_key ob "commit" c.id hm]
        · rw [if_neg hflag] at h
          simp only [] at h
          by_cases hsf : (prepareGitLoadOptions o).StagedFiles = true
          · rw [if_pos hsf] at h
            cases hos : objectsFromStagedFiles repo with
            | crash => simp [hos] at h
            | ret ls qs =>
              cases qs with
              | some e => simp [hos] at h
              | none =>
                have hsplit : (some ([] : List Object)).getD [] ++ ls.getD [] = objs := by
                  simp only [hos, GoResult.ret.injEq, Option.some.injEq, and_true] at h
                  exact h
                intro ob hob
                rw [← hsplit] at hob
                simp only [Option.getD_some, List.nil_append] at hob
                cases ls with
                | none => simp at hob
                | some staged =>
                  have hm := objectsFromStagedFiles_meta repo staged hos ob hob
                  simp [hasMeta_key ob "status" "staged" hm]
          · rw [if_neg hsf] at h
            have hobjs : some ([] : List Object) = some objs := by
              simp only [GoResult.ret.injEq, and_true] at h
              exact h
            simp only [Option.some.injEq] at hobjs
            subst hobjs
            intro ob hob
            simp at hob

/-- C8, witness: on the fixture, the commit-message object of the tip
commit (an object `LoadObjects` returns) carries a `commit` or `status`
metadata entry, and the staged object for `g.txt` carries
`status = "staged"`. -/
theorem claim_c8_witness :
    (((NewObject "commit-b2" sourceTypeName "commit-message"
        "second commit").SetMetadata "commit" "b2" ⟨false⟩).hasMetaKey "commit"
      || ((NewObject "commit-b2" sourceTypeName "commit-message"
        "second commit").SetMetadata "commit" "b2" ⟨false⟩).hasMetaKey "status") = true ∧
    ((NewObject "g.txt" sourceTypeName "file-content" "gamma").SetMetadata
        "status" "staged" ⟨false⟩).hasMeta "status" "staged" = true := by
  constructor
  · exact claim_c8_provenance.2.2 testWorld "/repo" optsAll
      (historyObjects testRepo true true testRepo.commits
        ++ [⟨"f.txt", "oidB"⟩, ⟨"g.txt", "oidG"⟩].filterMap (stagedSpecObject testRepo))
      (by decide) _ (by decide)
  · exact claim_c8_provenance.2.1 testRepo
      [(NewObject "g.txt" sourceTypeName "file-content" "gamma").SetMetadata
        "status" "staged" ⟨false⟩] (by decide) _ (by decide)

end Seekret

